import Mathlib

/-!
# Verification of the Mann-Whitney U calculator (src/utest.py)

Shallow embedding of `create_step_by_step_solution` and the built-in
sample dataset from `main`.  Group labels are strings (Python sorts the
unique labels lexicographically), observation values are rationals.

Faithfulness notes:
* `scipy.stats.rankdata(xs)` with the default method assigns to an entry
  with value `v` the midrank: the count of entries below `v`, plus half
  the count of entries tied at `v`, plus one half.
* `np.round(r, 2)` is embedded as `round2`.  Every midrank is an integer
  multiple of one half, on which any round-to-2-decimals convention is
  the identity, so the tie-breaking convention of `round` never matters
  on the values that occur.
* The source computes `Z = abs(U - mu_U) / sqrt(sigma_sq_U)` and rejects
  iff `Z > 1.96`.  Exact real square roots are not computable, so the
  stored Boolean decision is the equivalent squared comparison
  `(U - mu_U)^2 > 1.96^2 * sigma_sq_U` (equivalent because `sigma_sq_U`
  is positive whenever both groups are non-empty); the theorem for the
  decision-rule claim proves the equivalence with the real-valued
  formula using `Real.sqrt`.
* `sorted(data[group_col].unique())` (line 54) is embedded as insertion
  sort of the deduplicated label list: Python sorted output is exactly
  the sorted permutation of its input, as is `List.insertionSort`.
* With fewer than two distinct labels the source raises IndexError at
  `groups[1]` (resp. `groups[0]`, line 57-58); this is the
  `.error .indexError` case.  With three or more labels the source
  performs NO check: it uses the first two sorted labels while every row
  of every label enters the combined ranking.
-/

namespace UTest

/-- One row of the input table: a (group, value) pair taken from the
columns `group_col`, `value_col` of the dataframe. -/
structure Obs where
  group : String
  value : ℚ
deriving DecidableEq, Repr

/-- The count of entries of `vs` strictly below `v`. -/
def countLt (vs : List ℚ) (v : ℚ) : ℕ := (vs.filter (fun w => w < v)).length

/-- The count of entries of `vs` equal to `v`. -/
def countEq (vs : List ℚ) (v : ℚ) : ℕ := (vs.filter (fun w => w = v)).length

/-- The count of entries of `vs` at most `v`. -/
def countLe (vs : List ℚ) (v : ℚ) : ℕ := (vs.filter (fun w => w ≤ v)).length

/-- The rank that `scipy.stats.rankdata vs` (default method, average)
assigns to an entry with value `v`: the arithmetic mean of the positions
the tied block at `v` occupies in the ascending order. -/
def midrank (vs : List ℚ) (v : ℚ) : ℚ :=
  countLt vs v + ((countEq vs v : ℚ) + 1) / 2

/-- Rounding to two decimal places, `np.round(q, 2)` (source line 74). -/
def round2 (q : ℚ) : ℚ := ((round (100 * q) : ℤ) : ℚ) / 100

/-- The group size `n = sum(data[group_col] == g)` (source lines 57-58). -/
def countG (data : List Obs) (g : String) : ℕ :=
  (data.filter (fun o => o.group = g)).length

/-- The Rank column entry of the dataframe at a row with value `v`:
`np.round(stats.rankdata(values), 2)` (source line 74). -/
def rankOf (data : List Obs) (v : ℚ) : ℚ :=
  round2 (midrank (data.map Obs.value) v)

/-- A group rank sum, `df_ranked[df_ranked['Group'] == g]['Rank'].sum()`
(source lines 91-92). -/
def rankedSum (data : List Obs) (g : String) : ℚ :=
  ((data.filter (fun o => o.group = g)).map (fun o => rankOf data o.value)).sum

/-- The same rank sum computed from full-precision midranks, with no
rounding step; used to state that rounding is the identity on the
statistics. -/
def rankSumRaw (data : List Obs) (g : String) : ℚ :=
  ((data.filter (fun o => o.group = g)).map
    (fun o => midrank (data.map Obs.value) o.value)).sum

/-- The discovered labels, `sorted(data[group_col].unique())`
(source line 54). -/
def sortedGroups (data : List Obs) : List String :=
  List.insertionSort (· ≤ ·) (data.map Obs.group).dedup

/-- The dictionary returned by `create_step_by_step_solution` (source
lines 157-166), together with the reject/fail-to-reject decision. -/
structure TestResult where
  n1 : ℕ
  n2 : ℕ
  R1 : ℚ
  R2 : ℚ
  U1 : ℚ
  U2 : ℚ
  U : ℚ
  reject : Bool
deriving DecidableEq, Repr

/-- Source lines 57-58 and 64-154: the counts, rank sums, U statistics
and the significance decision for the two discovered labels
`gA = groups[0]` and `gB = groups[1]`.  The Boolean `reject` encodes
`Z > 1.96` through the equivalent squared comparison; see the file
header. -/
def mkResult (data : List Obs) (gA gB : String) : TestResult :=
  let n1 := countG data gA
  let n2 := countG data gB
  let R1 := rankedSum data gA
  let R2 := rankedSum data gB
  let U1 : ℚ := (n1 : ℚ) * n2 + ((n1 : ℚ) * ((n1 : ℚ) + 1)) / 2 - R1
  let U2 : ℚ := (n1 : ℚ) * n2 - U1
  let U : ℚ := min U1 U2
  let muU : ℚ := ((n1 : ℚ) * n2) / 2
  let sigmaSqU : ℚ := ((n1 : ℚ) * n2 * ((n1 : ℚ) + n2 + 1)) / 12
  { n1 := n1, n2 := n2, R1 := R1, R2 := R2, U1 := U1, U2 := U2, U := U,
    reject := decide ((49 / 25 : ℚ) ^ 2 * sigmaSqU < (U - muU) ^ 2) }

/-- The size gate (source lines 60-62): if either discovered group has
10 or more rows, the function displays an error message and returns
None; no test result is produced. -/
def runTest (data : List Obs) (gA gB : String) : Option TestResult :=
  if 10 ≤ countG data gA ∨ 10 ≤ countG data gB then none
  else some (mkResult data gA gB)

/-- The uncaught Python exceptions the embedded code can raise. -/
inductive PyError
  | indexError
deriving DecidableEq, Repr

/-- The whole of `create_step_by_step_solution`: discover the sorted
unique labels (line 54); with fewer than two labels the subscript
`groups[1]` (or `groups[0]`) raises IndexError; otherwise run the test
on the first two labels.  There is no check that the label count is
exactly two. -/
def utest (data : List Obs) : Except PyError (Option TestResult) :=
  match sortedGroups data with
  | gA :: gB :: _ => .ok (runTest data gA gB)
  | _ => .error .indexError

/-- The built-in sample dataset (source lines 204-207), in dataframe row
order. -/
def sampleData : List Obs :=
  [⟨"A", 20⟩, ⟨"A", 23⟩, ⟨"B", 25⟩, ⟨"B", 29⟩, ⟨"B", 30⟩, ⟨"B", 35⟩,
   ⟨"A", 39⟩, ⟨"A", 42⟩, ⟨"B", 42⟩, ⟨"A", 51⟩, ⟨"A", 57⟩, ⟨"A", 60⟩]

/-- A dataset with three distinct group labels (invalid input for the
test). -/
def dataThreeLabels : List Obs := [⟨"A", 1⟩, ⟨"B", 2⟩, ⟨"C", 3⟩]

/-- A dataset whose group column holds a single distinct label, so that
the second discovered group is empty. -/
def dataOneLabel : List Obs := [⟨"A", 1⟩, ⟨"A", 2⟩]

/-- Relabelling that exchanges the two group labels and keeps every
value (used for the label-swap symmetry claim). -/
def swapGroups (g1 g2 : String) (data : List Obs) : List Obs :=
  data.map (fun o =>
    ⟨if o.group = g1 then g2 else if o.group = g2 then g1 else o.group,
     o.value⟩)

/-- Analysis abbreviation (not from the source): the contribution of one
value to the classical pairwise-win form of the U statistic against an
opposing value list — one per strictly smaller opposing value, one half
per tie. -/
def crossScore (ys : List ℚ) (v : ℚ) : ℚ :=
  (countLt ys v : ℚ) + (countEq ys v : ℚ) / 2

/-- Analysis abbreviation (not from the source): total pairwise wins of
group `g1` over group `g2`. -/
def wins (data : List Obs) (g1 g2 : String) : ℚ :=
  ((data.filter (fun o => o.group = g1)).map
    (fun o =>
      crossScore ((data.filter (fun o => o.group = g2)).map Obs.value)
        o.value)).sum

section Helpers

/-- Splitting a sum over a pointwise sum of two functions. -/
theorem sum_map_add {α M : Type*} [AddCommMonoid M] (l : List α) (f g : α → M) :
    (l.map (fun x => f x + g x)).sum = (l.map f).sum + (l.map g).sum := by
  induction l with
  | nil => simp
  | cons a t ih => simp [ih, add_assoc, add_left_comm]

/-- A list sum of rationals with a uniform upper bound. -/
theorem sum_le_length_mul (l : List ℚ) (c : ℚ) (h : ∀ x ∈ l, x ≤ c) :
    l.sum ≤ (l.length : ℚ) * c := by
  induction l with
  | nil => simp
  | cons a t ih =>
      have ha : a ≤ c := h a (List.mem_cons_self a t)
      have ht : t.sum ≤ (t.length : ℚ) * c :=
        ih (fun x hx => h x (List.mem_cons_of_mem a hx))
      simp only [List.sum_cons, List.length_cons]
      push_cast
      linarith

/-- A list sum of rationals with nonnegative entries is nonnegative. -/
theorem sum_nonneg_of_mem (l : List ℚ) (h : ∀ x ∈ l, 0 ≤ x) : 0 ≤ l.sum := by
  induction l with
  | nil => simp
  | cons a t ih =>
      have ha : 0 ≤ a := h a (List.mem_cons_self a t)
      have ht : 0 ≤ t.sum := ih (fun x hx => h x (List.mem_cons_of_mem a hx))
      simp only [List.sum_cons]
      linarith

theorem countLt_cons (w : ℚ) (vs : List ℚ) (v : ℚ) :
    countLt (w :: vs) v = (if w < v then 1 else 0) + countLt vs v := by
  simp only [countLt, List.filter_cons]
  split <;> simp_all <;> omega

theorem countEq_cons (w : ℚ) (vs : List ℚ) (v : ℚ) :
    countEq (w :: vs) v = (if w = v then 1 else 0) + countEq vs v := by
  simp only [countEq, List.filter_cons]
  split <;> simp_all <;> omega

theorem countLe_cons (w : ℚ) (vs : List ℚ) (v : ℚ) :
    countLe (w :: vs) v = (if w ≤ v then 1 else 0) + countLe vs v := by
  simp only [countLe, List.filter_cons]
  split <;> simp_all <;> omega

theorem countLe_eq (vs : List ℚ) (v : ℚ) :
    countLe vs v = countLt vs v + countEq vs v := by
  induction vs with
  | nil => simp [countLt, countEq, countLe]
  | cons w t ih =>
      rw [countLe_cons, countLt_cons, countEq_cons, ih]
      rcases lt_trichotomy w v with h | h | h
      · simp [h, le_of_lt h, ne_of_lt h]
        omega
      · simp [h]
        omega
      · simp [not_le.mpr h, not_lt.mpr (le_of_lt h), ne_of_gt h]

/-- The score an ordered pair of values contributes to the double count:
one for a strict win of `v` over `w` plus one for a weak win. -/
def pairScore (v w : ℚ) : ℕ :=
  (if w < v then 1 else 0) + (if w ≤ v then 1 else 0)

theorem pairScore_add (v w : ℚ) : pairScore v w + pairScore w v = 2 := by
  unfold pairScore
  rcases lt_trichotomy v w with h | h | h
  · simp [h, le_of_lt h, not_lt.mpr (le_of_lt h), not_le.mpr h]
  · simp [h]
  · simp [h, le_of_lt h, not_lt.mpr (le_of_lt h), not_le.mpr h]

theorem countLt_add_countLe (vs : List ℚ) (v : ℚ) :
    countLt vs v + countLe vs v = (vs.map (pairScore v)).sum := by
  induction vs with
  | nil => simp [countLt, countLe]
  | cons w t ih =>
      rw [countLt_cons, countLe_cons, List.map_cons, List.sum_cons, ← ih,
        pairScore]
      omega

theorem sum_map_const_nat {α : Type*} (l : List α) (c : ℕ) :
    (l.map (fun _ => c)).sum = l.length * c := by
  induction l with
  | nil => simp
  | cons a t ih => simp [ih, Nat.succ_mul]; omega

/-- The double count: summing `pairScore` over all ordered pairs of
entries of `vs` gives the square of the length. -/
theorem sum_pairScore (vs : List ℚ) :
    (vs.map (fun v => (vs.map (pairScore v)).sum)).sum =
      vs.length * vs.length := by
  induction vs with
  | nil => simp
  | cons a t ih =>
      simp only [List.map_cons, List.sum_cons]
      rw [sum_map_add t (fun v => pairScore v a)
        (fun v => (t.map (pairScore v)).sum), ih]
      have h2 : (t.map (pairScore a)).sum + (t.map (fun v => pairScore v a)).sum =
          2 * t.length := by
        rw [← sum_map_add]
        have h3 : (t.map (fun x => pairScore a x + pairScore x a)).sum =
            (t.map (fun _ => 2)).sum := by
          apply congrArg
          apply List.map_congr_left
          intro x _
          exact pairScore_add a x
        rw [h3, sum_map_const_nat]
        omega
      have hself : pairScore a a = 1 := by simp [pairScore]
      simp only [List.length_cons]
      have hsq : (t.length + 1) * (t.length + 1) =
          t.length * t.length + 2 * t.length + 1 := by ring
      omega

theorem sum_map_nat_shift_div2 {α : Type*} (l : List α) (f : α → ℕ) :
    (l.map (fun x => ((f x : ℚ) + 1) / 2)).sum =
      (((l.map f).sum : ℚ) + l.length) / 2 := by
  induction l with
  | nil => simp
  | cons a t ih =>
      simp only [List.map_cons, List.sum_cons, List.length_cons, ih]
      push_cast
      ring

theorem midrank_eq (vs : List ℚ) (v : ℚ) :
    midrank vs v = ((countLt vs v + countLe vs v : ℕ) + 1 : ℚ) / 2 := by
  rw [midrank, countLe_eq]
  push_cast
  ring

/-- The rank-sum identity at the heart of the R1 + R2 invariant: the
midranks of all entries of a list sum to `N (N + 1) / 2`. -/
theorem sum_midrank (vs : List ℚ) :
    (vs.map (midrank vs)).sum = (vs.length : ℚ) * (vs.length + 1) / 2 := by
  have h0 : vs.map (midrank vs) =
      vs.map (fun v => (((fun w => countLt vs w + countLe vs w) v : ℚ) + 1) / 2) := by
    apply List.map_congr_left
    intro v _
    exact midrank_eq vs v
  rw [h0, sum_map_nat_shift_div2]
  have h1 : vs.map (fun w => countLt vs w + countLe vs w) =
      vs.map (fun v => (vs.map (pairScore v)).sum) := by
    apply List.map_congr_left
    intro v _
    exact countLt_add_countLe vs v
  rw [h1, sum_pairScore]
  push_cast
  ring

theorem round2_half (n : ℤ) : round2 ((n : ℚ) / 2) = (n : ℚ) / 2 := by
  unfold round2
  have h : (100 : ℚ) * ((n : ℚ) / 2) = ((50 * n : ℤ) : ℚ) := by
    push_cast
    ring
  rw [h, round_intCast]
  push_cast
  ring

/-- Every midrank is an integer multiple of one half. -/
theorem midrank_halfint (vs : List ℚ) (v : ℚ) :
    midrank vs v = ((2 * countLt vs v + countEq vs v + 1 : ℤ) : ℚ) / 2 := by
  rw [midrank]
  push_cast
  ring

/-- Rounding to two decimals is the identity on every midrank. -/
theorem round2_midrank (vs : List ℚ) (v : ℚ) :
    round2 (midrank vs v) = midrank vs v := by
  rw [midrank_halfint]
  exact round2_half _

theorem rankOf_eq_midrank (data : List Obs) (v : ℚ) :
    rankOf data v = midrank (data.map Obs.value) v :=
  round2_midrank _ v

/-- The rounding step of the source is the identity on the rank sums. -/
theorem rankedSum_eq_raw (data : List Obs) (g : String) :
    rankedSum data g = rankSumRaw data g := by
  unfold rankedSum rankSumRaw
  simp only [rankOf_eq_midrank]

/-- When every row belongs to one of two distinct labels, the two group
filters partition the dataset (up to permutation). -/
theorem filter_partition_perm {g1 g2 : String} (hne : g1 ≠ g2)
    (data : List Obs) (hall : ∀ o ∈ data, o.group = g1 ∨ o.group = g2) :
    List.Perm
      (data.filter (fun o => o.group = g1) ++
        data.filter (fun o => o.group = g2))
      data := by
  induction data with
  | nil => simp
  | cons o t ih =>
      have ht := ih (fun x hx => hall x (List.mem_cons_of_mem o hx))
      rcases hall o (List.mem_cons_self o t) with h | h
      · simp only [List.filter_cons, h]
        rw [if_pos (by simp), if_neg (by simp [hne]), List.cons_append]
        exact ht.cons o
      · simp only [List.filter_cons, h]
        rw [if_neg (by simp [Ne.symm hne]), if_pos (by simp)]
        exact List.Perm.trans List.perm_middle (ht.cons o)

theorem countG_partition {g1 g2 : String} (hne : g1 ≠ g2)
    (data : List Obs) (hall : ∀ o ∈ data, o.group = g1 ∨ o.group = g2) :
    countG data g1 + countG data g2 = data.length := by
  have h := (filter_partition_perm hne data hall).length_eq
  simpa [countG, List.length_append] using h

theorem sum_partition {g1 g2 : String} (hne : g1 ≠ g2)
    (data : List Obs) (hall : ∀ o ∈ data, o.group = g1 ∨ o.group = g2)
    (f : Obs → ℚ) :
    ((data.filter (fun o => o.group = g1)).map f).sum +
      ((data.filter (fun o => o.group = g2)).map f).sum = (data.map f).sum := by
  have h := ((filter_partition_perm hne data hall).map f).sum_eq
  simpa [List.map_append, List.sum_append] using h

theorem mem_sortedGroups (data : List Obs) (s : String) :
    s ∈ sortedGroups data ↔ s ∈ data.map Obs.group := by
  unfold sortedGroups
  rw [(List.perm_insertionSort (· ≤ ·) (data.map Obs.group).dedup).mem_iff,
    List.mem_dedup]

theorem sortedGroups_nodup (data : List Obs) : (sortedGroups data).Nodup :=
  ((List.perm_insertionSort (· ≤ ·) (data.map Obs.group).dedup).nodup_iff).mpr
    (List.nodup_dedup _)

theorem sortedGroups_sorted (data : List Obs) :
    (sortedGroups data).Sorted (· ≤ ·) :=
  List.sorted_insertionSort (· ≤ ·) _

/-- What a two-label value of `sortedGroups` says about the dataset: the
labels are ordered, distinct, both inhabited, and cover every row. -/
theorem sortedGroups_pair_facts {data : List Obs} {g1 g2 : String}
    (h : sortedGroups data = [g1, g2]) :
    g1 < g2 ∧ (∀ o ∈ data, o.group = g1 ∨ o.group = g2) ∧
      1 ≤ countG data g1 ∧ 1 ≤ countG data g2 := by
  have hnd : ([g1, g2] : List String).Nodup := h ▸ sortedGroups_nodup data
  have hne : g1 ≠ g2 := by
    intro hcon
    simp [hcon] at hnd
  have hsorted : ([g1, g2] : List String).Sorted (· ≤ ·) :=
    h ▸ sortedGroups_sorted data
  have hle : g1 ≤ g2 := by
    have := List.rel_of_sorted_cons hsorted g2
    simpa using this
  have hmem : ∀ s, s ∈ sortedGroups data ↔ s ∈ data.map Obs.group :=
    mem_sortedGroups data
  refine ⟨lt_of_le_of_ne hle hne, ?_, ?_, ?_⟩
  · intro o ho
    have : o.group ∈ sortedGroups data := by
      rw [hmem]
      exact List.mem_map_of_mem Obs.group ho
    rw [h] at this
    simpa using this
  · have : g1 ∈ data.map Obs.group := by
      rw [← hmem, h]
      simp
    rcases List.mem_map.mp this with ⟨o, ho, hgo⟩
    have : o ∈ data.filter (fun o => o.group = g1) :=
      List.mem_filter.mpr ⟨ho, by simp [hgo]⟩
    have hpos := List.length_pos.mpr (List.ne_nil_of_mem this)
    simpa [countG] using hpos
  · have : g2 ∈ data.map Obs.group := by
      rw [← hmem, h]
      simp
    rcases List.mem_map.mp this with ⟨o, ho, hgo⟩
    have : o ∈ data.filter (fun o => o.group = g2) :=
      List.mem_filter.mpr ⟨ho, by simp [hgo]⟩
    have hpos := List.length_pos.mpr (List.ne_nil_of_mem this)
    simpa [countG] using hpos

/-- Converse direction: a dataset whose rows all carry one of two
inhabited, ordered labels has exactly those labels as its sorted unique
group list. -/
theorem sortedGroups_eq_pair {data : List Obs} {g1 g2 : String}
    (hlt : g1 < g2) (hall : ∀ o ∈ data, o.group = g1 ∨ o.group = g2)
    (h1 : g1 ∈ data.map Obs.group) (h2 : g2 ∈ data.map Obs.group) :
    sortedGroups data = [g1, g2] := by
  have hnd2 : ([g1, g2] : List String).Nodup := by simp [ne_of_lt hlt]
  have hperm : List.Perm (sortedGroups data) [g1, g2] := by
    rw [List.perm_ext_iff_of_nodup (sortedGroups_nodup data) hnd2]
    intro s
    rw [mem_sortedGroups]
    constructor
    · intro hs
      rcases List.mem_map.mp hs with ⟨o, ho, hgo⟩
      rcases hall o ho with hg | hg
      · simp [← hgo, hg]
      · simp [← hgo, hg]
    · intro hs
      rcases List.mem_cons.mp hs with hs | hs
      · rw [hs]
        exact h1
      · simp only [List.mem_singleton] at hs
        rw [hs]
        exact h2
  have hs2 : List.Sorted (fun a b : String => a ≤ b) [g1, g2] := by
    refine List.sorted_cons.mpr ⟨?_, List.sorted_singleton g2⟩
    intro b hb
    rw [List.mem_singleton.mp hb]
    exact le_of_lt hlt
  exact List.eq_of_perm_of_sorted hperm (sortedGroups_sorted data) hs2

theorem utest_eq_run {data : List Obs} {gA gB : String} {rest : List String}
    (h : sortedGroups data = gA :: gB :: rest) :
    utest data = .ok (runTest data gA gB) := by
  unfold utest
  rw [h]

theorem runTest_eq_some {data : List Obs} {gA gB : String} {r : TestResult}
    (hr : runTest data gA gB = some r) :
    countG data gA < 10 ∧ countG data gB < 10 ∧ r = mkResult data gA gB := by
  unfold runTest at hr
  by_cases h : 10 ≤ countG data gA ∨ 10 ≤ countG data gB
  · rw [if_pos h] at hr
    exact absurd hr (by simp)
  · rw [if_neg h] at hr
    push_neg at h
    exact ⟨h.1, h.2, (Option.some_inj.mp hr).symm⟩

theorem runTest_none_iff (data : List Obs) (gA gB : String) :
    runTest data gA gB = none ↔
      (10 ≤ countG data gA ∨ 10 ≤ countG data gB) := by
  unfold runTest
  by_cases h : 10 ≤ countG data gA ∨ 10 ≤ countG data gB
  · simp [if_pos h, h]
  · simp [if_neg h, h]

theorem mkResult_n1 (data : List Obs) (gA gB : String) :
    (mkResult data gA gB).n1 = countG data gA := rfl

theorem mkResult_n2 (data : List Obs) (gA gB : String) :
    (mkResult data gA gB).n2 = countG data gB := rfl

theorem mkResult_R1 (data : List Obs) (gA gB : String) :
    (mkResult data gA gB).R1 = rankedSum data gA := rfl

theorem mkResult_R2 (data : List Obs) (gA gB : String) :
    (mkResult data gA gB).R2 = rankedSum data gB := rfl

theorem mkResult_U1 (data : List Obs) (gA gB : String) :
    (mkResult data gA gB).U1 =
      (countG data gA : ℚ) * countG data gB +
        ((countG data gA : ℚ) * ((countG data gA : ℚ) + 1)) / 2 -
        rankedSum data gA := rfl

theorem mkResult_U2 (data : List Obs) (gA gB : String) :
    (mkResult data gA gB).U2 =
      (countG data gA : ℚ) * countG data gB - (mkResult data gA gB).U1 := rfl

theorem mkResult_U (data : List Obs) (gA gB : String) :
    (mkResult data gA gB).U =
      min (mkResult data gA gB).U1 (mkResult data gA gB).U2 := rfl

theorem mkResult_reject (data : List Obs) (gA gB : String) :
    (mkResult data gA gB).reject =
      decide ((49 / 25 : ℚ) ^ 2 *
          (((countG data gA : ℚ) * countG data gB *
            ((countG data gA : ℚ) + countG data gB + 1)) / 12) <
        ((mkResult data gA gB).U -
          ((countG data gA : ℚ) * countG data gB) / 2) ^ 2) := rfl

theorem countLt_perm {vs vs' : List ℚ} (h : List.Perm vs vs') (v : ℚ) :
    countLt vs v = countLt vs' v :=
  (h.filter (fun w => decide (w < v))).length_eq

theorem countEq_perm {vs vs' : List ℚ} (h : List.Perm vs vs') (v : ℚ) :
    countEq vs v = countEq vs' v :=
  (h.filter (fun w => decide (w = v))).length_eq

theorem countLt_append (xs ys : List ℚ) (v : ℚ) :
    countLt (xs ++ ys) v = countLt xs v + countLt ys v := by
  simp [countLt, List.filter_append]

theorem countEq_append (xs ys : List ℚ) (v : ℚ) :
    countEq (xs ++ ys) v = countEq xs v + countEq ys v := by
  simp [countEq, List.filter_append]

/-- Midrank in a two-part value list splits into the within-part midrank
plus the cross-part win count. -/
theorem midrank_append (xs ys : List ℚ) (v : ℚ) :
    midrank (xs ++ ys) v =
      midrank xs v + (countLt ys v : ℚ) + (countEq ys v : ℚ) / 2 := by
  unfold midrank
  rw [countLt_append, countEq_append]
  push_cast
  ring

theorem midrank_perm {vs vs' : List ℚ} (h : List.Perm vs vs') (v : ℚ) :
    midrank vs v = midrank vs' v := by
  unfold midrank
  rw [countLt_perm h, countEq_perm h]

theorem crossScore_nonneg (ys : List ℚ) (v : ℚ) : 0 ≤ crossScore ys v := by
  unfold crossScore
  positivity

theorem crossScore_le_length (ys : List ℚ) (v : ℚ) :
    crossScore ys v ≤ (ys.length : ℚ) := by
  unfold crossScore
  have h1 : countLt ys v + countEq ys v ≤ ys.length := by
    rw [← countLe_eq]
    exact List.length_filter_le _ _
  have h2 : ((countLt ys v : ℚ) + (countEq ys v : ℚ)) ≤ (ys.length : ℚ) := by
    exact_mod_cast h1
  have h3 : (0 : ℚ) ≤ (countEq ys v : ℚ) := by positivity
  linarith

theorem wins_nonneg (data : List Obs) (g1 g2 : String) :
    0 ≤ wins data g1 g2 := by
  apply sum_nonneg_of_mem
  intro x hx
  rcases List.mem_map.mp hx with ⟨o, _, rfl⟩
  exact crossScore_nonneg _ _

theorem wins_le (data : List Obs) (g1 g2 : String) :
    wins data g1 g2 ≤ (countG data g1 : ℚ) * (countG data g2 : ℚ) := by
  unfold wins
  have hb : ∀ x ∈ (data.filter (fun o => o.group = g1)).map
      (fun o =>
        crossScore ((data.filter (fun o => o.group = g2)).map Obs.value)
          o.value), x ≤ (countG data g2 : ℚ) := by
    intro x hx
    rcases List.mem_map.mp hx with ⟨o, _, rfl⟩
    have := crossScore_le_length
      ((data.filter (fun o => o.group = g2)).map Obs.value) o.value
    simpa [countG, List.length_map] using this
  have h := sum_le_length_mul _ _ hb
  simpa [countG, List.length_map] using h

/-- Decomposition of the raw rank sum of group 1 in a two-group dataset:
its own within-group rank total plus its pairwise wins over group 2. -/
theorem rankSumRaw_decomp {data : List Obs} {g1 g2 : String}
    (hne : g1 ≠ g2) (hall : ∀ o ∈ data, o.group = g1 ∨ o.group = g2) :
    rankSumRaw data g1 =
      (countG data g1 : ℚ) * ((countG data g1 : ℚ) + 1) / 2 +
        wins data g1 g2 := by
  have hperm := filter_partition_perm hne data hall
  have hvperm : List.Perm
      (((data.filter (fun o => o.group = g1)).map Obs.value) ++
        ((data.filter (fun o => o.group = g2)).map Obs.value))
      (data.map Obs.value) := by
    have h := hperm.map Obs.value
    rwa [List.map_append] at h
  unfold rankSumRaw
  have hpt : ∀ o ∈ data.filter (fun o => o.group = g1),
      midrank (data.map Obs.value) o.value =
        midrank ((data.filter (fun o => o.group = g1)).map Obs.value)
            o.value +
          crossScore ((data.filter (fun o => o.group = g2)).map Obs.value)
            o.value := by
    intro o _
    rw [← midrank_perm hvperm, midrank_append, crossScore]
    ring
  rw [List.map_congr_left hpt, sum_map_add]
  have hmm : (data.filter (fun o => o.group = g1)).map
      (fun o =>
        midrank ((data.filter (fun o => o.group = g1)).map Obs.value)
          o.value) =
      ((data.filter (fun o => o.group = g1)).map Obs.value).map
        (midrank ((data.filter (fun o => o.group = g1)).map Obs.value)) := by
    rw [List.map_map]
    rfl
  rw [hmm, sum_midrank]
  unfold wins
  have hlen : (((data.filter (fun o => o.group = g1)).map Obs.value).length : ℚ)
      = (countG data g1 : ℚ) := by
    simp [countG, List.length_map]
  rw [hlen]

/-- The total of all raw midranks over a two-group dataset. -/
theorem rankSumRaw_total {data : List Obs} {g1 g2 : String}
    (hne : g1 ≠ g2) (hall : ∀ o ∈ data, o.group = g1 ∨ o.group = g2) :
    rankSumRaw data g1 + rankSumRaw data g2 =
      (data.length : ℚ) * ((data.length : ℚ) + 1) / 2 := by
  unfold rankSumRaw
  rw [sum_partition hne data hall
    (fun o => midrank (data.map Obs.value) o.value)]
  have hmm : data.map (fun o => midrank (data.map Obs.value) o.value) =
      (data.map Obs.value).map (midrank (data.map Obs.value)) := by
    rw [List.map_map]
    rfl
  rw [hmm, sum_midrank]
  simp [List.length_map]

/-- The squared rational comparison stored in `reject` is exactly the
real-valued decision `Z > 1.96` of the source, whenever the variance
term is positive. -/
theorem reject_iff_Z {U muQ sQ : ℚ} (hs : 0 < sQ) :
    ((49 / 25 : ℚ) ^ 2 * sQ < (U - muQ) ^ 2) ↔
      (1.96 : ℝ) < |(U : ℝ) - (muQ : ℝ)| / Real.sqrt (sQ : ℝ) := by
  have hsR : (0 : ℝ) < (sQ : ℝ) := by exact_mod_cast hs
  have hsqrt : 0 < Real.sqrt (sQ : ℝ) := Real.sqrt_pos.mpr hsR
  rw [lt_div_iff₀ hsqrt]
  have h196 : (1.96 : ℝ) = ((49 / 25 : ℚ) : ℝ) := by norm_num
  rw [h196]
  have ha : (0 : ℝ) ≤ ((49 / 25 : ℚ) : ℝ) * Real.sqrt (sQ : ℝ) := by
    positivity
  have hb : (0 : ℝ) ≤ |(U : ℝ) - (muQ : ℝ)| := abs_nonneg _
  rw [mul_self_lt_mul_self_iff ha hb]
  have hexp : ((49 / 25 : ℚ) : ℝ) * Real.sqrt (sQ : ℝ) *
      (((49 / 25 : ℚ) : ℝ) * Real.sqrt (sQ : ℝ)) =
      ((49 / 25 : ℚ) : ℝ) ^ 2 * (sQ : ℝ) := by
    rw [show ((49 / 25 : ℚ) : ℝ) * Real.sqrt (sQ : ℝ) *
        (((49 / 25 : ℚ) : ℝ) * Real.sqrt (sQ : ℝ)) =
        ((49 / 25 : ℚ) : ℝ) ^ 2 *
          (Real.sqrt (sQ : ℝ) * Real.sqrt (sQ : ℝ)) from by ring]
    rw [Real.mul_self_sqrt hsR.le]
  rw [hexp, abs_mul_abs_self]
  constructor
  · intro h
    have hR : (((49 / 25 : ℚ) ^ 2 * sQ : ℚ) : ℝ) <
        (((U - muQ) ^ 2 : ℚ) : ℝ) := by exact_mod_cast h
    push_cast at hR
    nlinarith [hR]
  · intro h
    have hR : (((49 / 25 : ℚ) ^ 2 * sQ : ℚ) : ℝ) <
        (((U - muQ) ^ 2 : ℚ) : ℝ) := by
      push_cast
      nlinarith [h]
    exact_mod_cast hR

theorem sum_map_const_rat {α : Type*} (l : List α) (q : ℚ) :
    (l.map (fun _ => q)).sum = (l.length : ℚ) * q := by
  induction l with
  | nil => simp
  | cons a t ih =>
      simp only [List.map_cons, List.sum_cons, List.length_cons, ih]
      push_cast
      ring

theorem countG_pos_iff (data : List Obs) (g : String) :
    1 ≤ countG data g ↔ g ∈ data.map Obs.group := by
  constructor
  · intro h
    obtain ⟨o, ho⟩ := List.exists_mem_of_length_pos h
    have hm := List.mem_filter.mp ho
    refine List.mem_map.mpr ⟨o, hm.1, ?_⟩
    simpa using hm.2
  · intro h
    rcases List.mem_map.mp h with ⟨o, ho, hgo⟩
    have : o ∈ data.filter (fun o => o.group = g) :=
      List.mem_filter.mpr ⟨ho, by simp [hgo]⟩
    exact List.length_pos.mpr (List.ne_nil_of_mem this)

theorem utest_some_run {data : List Obs} {g1 g2 : String} {r : TestResult}
    (h : sortedGroups data = [g1, g2]) (hr : utest data = .ok (some r)) :
    countG data g1 < 10 ∧ countG data g2 < 10 ∧ r = mkResult data g1 g2 := by
  rw [utest_eq_run h] at hr
  exact runTest_eq_some (Except.ok.inj hr)

end Helpers

/-- C1: for every valid two-group dataset (two distinct labels, both
non-empty, both of size below 10) the engine produces a result whose
test statistic is `U = min U1 U2`, and it rejects the null hypothesis
exactly when `Z = abs (U - mu_U) / sigma_U` exceeds 1.96, with
`mu_U = n1 n2 / 2` and `sigma_U = sqrt (n1 n2 (n1 + n2 + 1) / 12)`. -/
theorem mann_whitney_z_decision {data : List Obs} {g1 g2 : String}
    {r : TestResult} (h : sortedGroups data = [g1, g2])
    (hr : utest data = .ok (some r)) :
    r.U = min r.U1 r.U2 ∧
      (r.reject = true ↔
        (1.96 : ℝ) <
          |(r.U : ℝ) - (r.n1 : ℝ) * (r.n2 : ℝ) / 2| /
            Real.sqrt
              ((r.n1 : ℝ) * (r.n2 : ℝ) * ((r.n1 : ℝ) + (r.n2 : ℝ) + 1) /
                12)) := by
  obtain ⟨hs1, hs2, rfl⟩ := utest_some_run h hr
  obtain ⟨hlt, hall, hc1, hc2⟩ := sortedGroups_pair_facts h
  refine ⟨mkResult_U data g1 g2, ?_⟩
  have hq1 : (0 : ℚ) < (countG data g1 : ℚ) := by exact_mod_cast hc1
  have hq2 : (0 : ℚ) < (countG data g2 : ℚ) := by exact_mod_cast hc2
  have hs : (0 : ℚ) <
      ((countG data g1 : ℚ) * countG data g2 *
        ((countG data g1 : ℚ) + countG data g2 + 1)) / 12 := by
    apply div_pos
    · apply mul_pos (mul_pos hq1 hq2)
      linarith
    · norm_num
  rw [mkResult_reject, decide_eq_true_eq, reject_iff_Z hs]
  rw [mkResult_n1, mkResult_n2]
  have e1 : ((((countG data g1 : ℚ) * countG data g2) / 2 : ℚ) : ℝ) =
      (countG data g1 : ℝ) * (countG data g2 : ℝ) / 2 := by
    push_cast
    ring
  have e2 : ((((countG data g1 : ℚ) * countG data g2 *
      ((countG data g1 : ℚ) + countG data g2 + 1)) / 12 : ℚ) : ℝ) =
      (countG data g1 : ℝ) * (countG data g2 : ℝ) *
        ((countG data g1 : ℝ) + (countG data g2 : ℝ) + 1) / 12 := by
    push_cast
    ring
  rw [e1, e2]

/-- C4: for every valid two-group dataset on which the engine produces a
result, the two rank sums add up to `N (N + 1) / 2` with `N = n1 + n2`,
despite the per-rank rounding step. -/
theorem rank_sum_invariant {data : List Obs} {g1 g2 : String}
    {r : TestResult} (h : sortedGroups data = [g1, g2])
    (hr : utest data = .ok (some r)) :
    r.R1 + r.R2 =
      ((r.n1 : ℚ) + (r.n2 : ℚ)) * ((r.n1 : ℚ) + (r.n2 : ℚ) + 1) / 2 := by
  obtain ⟨hs1, hs2, rfl⟩ := utest_some_run h hr
  obtain ⟨hlt, hall, hc1, hc2⟩ := sortedGroups_pair_facts h
  have hne : g1 ≠ g2 := ne_of_lt hlt
  rw [mkResult_R1, mkResult_R2, mkResult_n1, mkResult_n2,
    rankedSum_eq_raw, rankedSum_eq_raw, rankSumRaw_total hne hall]
  have hN : countG data g1 + countG data g2 = data.length :=
    countG_partition hne data hall
  have hNq : (data.length : ℚ) = (countG data g1 : ℚ) + countG data g2 := by
    exact_mod_cast hN.symm
  rw [hNq]

/-- C5: for every valid two-group dataset on which the engine produces a
result, `U1` and `U2` follow their defining formulas, sum to `n1 n2`,
and are both nonnegative. -/
theorem u_statistic_invariant {data : List Obs} {g1 g2 : String}
    {r : TestResult} (h : sortedGroups data = [g1, g2])
    (hr : utest data = .ok (some r)) :
    r.U1 = (r.n1 : ℚ) * (r.n2 : ℚ) +
        ((r.n1 : ℚ) * ((r.n1 : ℚ) + 1)) / 2 - r.R1 ∧
      r.U2 = (r.n1 : ℚ) * (r.n2 : ℚ) - r.U1 ∧
      r.U1 + r.U2 = (r.n1 : ℚ) * (r.n2 : ℚ) ∧
      0 ≤ r.U1 ∧ 0 ≤ r.U2 := by
  obtain ⟨hs1, hs2, rfl⟩ := utest_some_run h hr
  obtain ⟨hlt, hall, hc1, hc2⟩ := sortedGroups_pair_facts h
  have hne : g1 ≠ g2 := ne_of_lt hlt
  have hdec := rankSumRaw_decomp hne hall
  have hW0 := wins_nonneg data g1 g2
  have hWle := wins_le data g1 g2
  have hU1 : (mkResult data g1 g2).U1 =
      (countG data g1 : ℚ) * countG data g2 - wins data g1 g2 := by
    rw [mkResult_U1, rankedSum_eq_raw, hdec]
    ring
  refine ⟨?_, ?_, ?_, ?_, ?_⟩
  · rw [mkResult_U1, mkResult_n1, mkResult_n2, mkResult_R1]
  · rw [mkResult_U2, mkResult_n1, mkResult_n2]
  · rw [mkResult_U2, mkResult_n1, mkResult_n2]
    ring
  · rw [hU1]
    linarith
  · rw [mkResult_U2, hU1]
    linarith

/-- C6: with two discovered labels, the computation aborts with the
size-gate error (returning no test result) exactly when one of the
group sizes is at least 10; when both sizes are at most 9 it produces a
result. -/
theorem sample_size_gate {data : List Obs} {g1 g2 : String}
    (h : sortedGroups data = [g1, g2]) :
    (10 ≤ countG data g1 ∨ 10 ≤ countG data g2 →
        utest data = .ok none) ∧
      (countG data g1 < 10 → countG data g2 < 10 →
        ∃ r, utest data = .ok (some r)) := by
  constructor
  · intro hbig
    rw [utest_eq_run h, (runTest_none_iff data g1 g2).mpr hbig]
  · intro h1 h2
    refine ⟨mkResult data g1 g2, ?_⟩
    rw [utest_eq_run h]
    unfold runTest
    rw [if_neg ?_]
    push_neg
    exact ⟨h1, h2⟩

/-- C8: on a valid two-group dataset whose values are all equal, every
observation receives the common midrank `(N + 1) / 2`, the U statistics
degenerate to `U1 = U2 = n1 n2 / 2`, the Z statistic is zero, and the
decision is fail-to-reject. -/
theorem all_tied_degenerate {data : List Obs} {g1 g2 : String} {c : ℚ}
    (h : sortedGroups data = [g1, g2]) (hc : ∀ o ∈ data, o.value = c)
    (h1 : countG data g1 < 10) (h2 : countG data g2 < 10) :
    ∃ r, utest data = .ok (some r) ∧
      (∀ o ∈ data, rankOf data o.value = ((data.length : ℚ) + 1) / 2) ∧
      r.U1 = (r.n1 : ℚ) * (r.n2 : ℚ) / 2 ∧
      r.U2 = (r.n1 : ℚ) * (r.n2 : ℚ) / 2 ∧
      |(r.U : ℝ) - (r.n1 : ℝ) * (r.n2 : ℝ) / 2| /
          Real.sqrt
            ((r.n1 : ℝ) * (r.n2 : ℝ) * ((r.n1 : ℝ) + (r.n2 : ℝ) + 1) /
              12) = 0 ∧
      r.reject = false := by
  obtain ⟨hlt, hall, hc1, hc2⟩ := sortedGroups_pair_facts h
  have hne : g1 ≠ g2 := ne_of_lt hlt
  have hval : ∀ w ∈ data.map Obs.value, w = c := by
    intro w hw
    rcases List.mem_map.mp hw with ⟨o, ho, hov⟩
    rw [← hov]
    exact hc o ho
  have hLt : countLt (data.map Obs.value) c = 0 := by
    unfold countLt
    rw [List.filter_eq_nil_iff.mpr (fun a ha => by simp [hval a ha])]
    rfl
  have hEq : countEq (data.map Obs.value) c = data.length := by
    unfold countEq
    rw [List.filter_eq_self.mpr (fun a ha => by simp [hval a ha])]
    simp [List.length_map]
  have hmid : midrank (data.map Obs.value) c = ((data.length : ℚ) + 1) / 2 := by
    rw [midrank, hLt, hEq]
    push_cast
    ring
  have hrank : ∀ o ∈ data, rankOf data o.value =
      ((data.length : ℚ) + 1) / 2 := by
    intro o ho
    rw [rankOf_eq_midrank, hc o ho, hmid]
  have hsum : ∀ g : String, rankedSum data g =
      (countG data g : ℚ) * (((data.length : ℚ) + 1) / 2) := by
    intro g
    unfold rankedSum
    have hcg : (data.filter (fun o => o.group = g)).map
        (fun o => rankOf data o.value) =
        (data.filter (fun o => o.group = g)).map
          (fun _ => ((data.length : ℚ) + 1) / 2) := by
      apply List.map_congr_left
      intro o ho
      exact hrank o (List.mem_of_mem_filter ho)
    rw [hcg, sum_map_const_rat]
    rfl
  have hN : countG data g1 + countG data g2 = data.length :=
    countG_partition hne data hall
  have hNq : (data.length : ℚ) = (countG data g1 : ℚ) + countG data g2 := by
    exact_mod_cast hN.symm
  have hU1 : (mkResult data g1 g2).U1 =
      (countG data g1 : ℚ) * countG data g2 / 2 := by
    rw [mkResult_U1, hsum g1, hNq]
    ring
  have hU2 : (mkResult data g1 g2).U2 =
      (countG data g1 : ℚ) * countG data g2 / 2 := by
    rw [mkResult_U2, hU1]
    ring
  have hU : (mkResult data g1 g2).U =
      (countG data g1 : ℚ) * countG data g2 / 2 := by
    rw [mkResult_U, hU1, hU2]
    exact min_self _
  refine ⟨mkResult data g1 g2, ?_, hrank, ?_, ?_, ?_, ?_⟩
  · rw [utest_eq_run h]
    unfold runTest
    rw [if_neg ?_]
    push_neg
    exact ⟨h1, h2⟩
  · rw [hU1, mkResult_n1, mkResult_n2]
  · rw [hU2, mkResult_n1, mkResult_n2]
  · have hnum : (((mkResult data g1 g2).U : ℝ)) -
        ((mkResult data g1 g2).n1 : ℝ) * ((mkResult data g1 g2).n2 : ℝ) / 2
        = 0 := by
      rw [hU, mkResult_n1, mkResult_n2]
      push_cast
      ring
    rw [hnum]
    simp
  · rw [mkResult_reject]
    apply decide_eq_false
    rw [hU]
    intro hcon
    have hthr : (0 : ℚ) ≤ (49 / 25 : ℚ) ^ 2 *
        (((countG data g1 : ℚ) * countG data g2 *
          ((countG data g1 : ℚ) + countG data g2 + 1)) / 12) := by
      have hq1 : (0 : ℚ) ≤ (countG data g1 : ℚ) := by positivity
      have hq2 : (0 : ℚ) ≤ (countG data g2 : ℚ) := by positivity
      positivity
    nlinarith [hcon]

/-- C10: every rank the engine computes is an integer multiple of one
half, rounding to two decimals is the identity on it, and the rounded
rank sums coincide with the full-precision rank sums (hence so do the U
statistics computed from them). -/
theorem rounding_is_identity {data : List Obs} (g : String) {o : Obs}
    (ho : o ∈ data) :
    (∃ k : ℤ, rankOf data o.value = (k : ℚ) / 2) ∧
      rankOf data o.value = midrank (data.map Obs.value) o.value ∧
      rankedSum data g = rankSumRaw data g := by
  refine ⟨⟨2 * countLt (data.map Obs.value) o.value +
    countEq (data.map Obs.value) o.value + 1, ?_⟩,
    rankOf_eq_midrank data o.value, rankedSum_eq_raw data g⟩
  rw [rankOf_eq_midrank, midrank_halfint]

theorem swap_map_value (g1 g2 : String) (data : List Obs) :
    (swapGroups g1 g2 data).map Obs.value = data.map Obs.value := by
  unfold swapGroups
  rw [List.map_map]
  rfl

theorem swap_filter_to_g1 {g1 g2 : String} (hne : g1 ≠ g2)
    (data : List Obs) :
    (swapGroups g1 g2 data).filter (fun o => o.group = g1) =
      (data.filter (fun o => o.group = g2)).map
        (fun o => (⟨if o.group = g1 then g2
          else if o.group = g2 then g1 else o.group, o.value⟩ : Obs)) := by
  unfold swapGroups
  rw [List.filter_map]
  have hfun : ((fun o : Obs => decide (o.group = g1)) ∘
      (fun o : Obs => (⟨if o.group = g1 then g2
        else if o.group = g2 then g1 else o.group, o.value⟩ : Obs))) =
      fun o : Obs => decide (o.group = g2) := by
    funext o
    by_cases ha : o.group = g1
    · simp [Function.comp, ha, Ne.symm hne, hne]
    · by_cases hb : o.group = g2
      · simp [Function.comp, ha, hb]
      · simp [Function.comp, ha, hb]
  rw [hfun]

theorem swap_filter_to_g2 {g1 g2 : String} (hne : g1 ≠ g2)
    (data : List Obs) :
    (swapGroups g1 g2 data).filter (fun o => o.group = g2) =
      (data.filter (fun o => o.group = g1)).map
        (fun o => (⟨if o.group = g1 then g2
          else if o.group = g2 then g1 else o.group, o.value⟩ : Obs)) := by
  unfold swapGroups
  rw [List.filter_map]
  have hfun : ((fun o : Obs => decide (o.group = g2)) ∘
      (fun o : Obs => (⟨if o.group = g1 then g2
        else if o.group = g2 then g1 else o.group, o.value⟩ : Obs))) =
      fun o : Obs => decide (o.group = g1) := by
    funext o
    by_cases ha : o.group = g1
    · simp [Function.comp, ha]
    · by_cases hb : o.group = g2
      · simp [Function.comp, ha, hb, hne, Ne.symm hne]
      · simp [Function.comp, ha, hb]
  rw [hfun]

theorem swap_countG_fst {g1 g2 : String} (hne : g1 ≠ g2)
    (data : List Obs) :
    countG (swapGroups g1 g2 data) g1 = countG data g2 := by
  unfold countG
  rw [swap_filter_to_g1 hne, List.length_map]

theorem swap_countG_snd {g1 g2 : String} (hne : g1 ≠ g2)
    (data : List Obs) :
    countG (swapGroups g1 g2 data) g2 = countG data g1 := by
  unfold countG
  rw [swap_filter_to_g2 hne, List.length_map]

theorem swap_rankedSum_fst {g1 g2 : String} (hne : g1 ≠ g2)
    (data : List Obs) :
    rankedSum (swapGroups g1 g2 data) g1 = rankedSum data g2 := by
  unfold rankedSum
  rw [swap_filter_to_g1 hne, List.map_map]
  apply congrArg
  apply List.map_congr_left
  intro o _
  show rankOf (swapGroups g1 g2 data) o.value = rankOf data o.value
  unfold rankOf
  rw [swap_map_value]

theorem swap_rankedSum_snd {g1 g2 : String} (hne : g1 ≠ g2)
    (data : List Obs) :
    rankedSum (swapGroups g1 g2 data) g2 = rankedSum data g1 := by
  unfold rankedSum
  rw [swap_filter_to_g2 hne, List.map_map]
  apply congrArg
  apply List.map_congr_left
  intro o _
  show rankOf (swapGroups g1 g2 data) o.value = rankOf data o.value
  unfold rankOf
  rw [swap_map_value]

theorem swap_sortedGroups {data : List Obs} {g1 g2 : String}
    (h : sortedGroups data = [g1, g2]) :
    sortedGroups (swapGroups g1 g2 data) = [g1, g2] := by
  obtain ⟨hlt, hall, hc1, hc2⟩ := sortedGroups_pair_facts h
  have hne : g1 ≠ g2 := ne_of_lt hlt
  apply sortedGroups_eq_pair hlt
  · intro o ho
    unfold swapGroups at ho
    rcases List.mem_map.mp ho with ⟨p, hp, rfl⟩
    rcases hall p hp with hg | hg
    · right
      simp [hg]
    · left
      simp [hg, Ne.symm hne]
  · rw [← countG_pos_iff, swap_countG_fst hne]
    exact hc2
  · rw [← countG_pos_iff, swap_countG_snd hne]
    exact hc1

/-- C9: swapping the two group labels exchanges `(n1, R1, U1)` with
`(n2, R2, U2)` while leaving `U = min U1 U2`, the Z statistic and the
decision unchanged. -/
theorem swap_labels_symmetry {data : List Obs} {g1 g2 : String}
    {r : TestResult} (h : sortedGroups data = [g1, g2])
    (hr : utest data = .ok (some r)) :
    ∃ r2, utest (swapGroups g1 g2 data) = .ok (some r2) ∧
      r2.n1 = r.n2 ∧ r2.n2 = r.n1 ∧ r2.R1 = r.R2 ∧ r2.R2 = r.R1 ∧
      r2.U1 = r.U2 ∧ r2.U2 = r.U1 ∧ r2.U = r.U ∧ r2.reject = r.reject ∧
      |(r2.U : ℝ) - (r2.n1 : ℝ) * (r2.n2 : ℝ) / 2| /
          Real.sqrt
            ((r2.n1 : ℝ) * (r2.n2 : ℝ) * ((r2.n1 : ℝ) + (r2.n2 : ℝ) + 1) /
              12) =
        |(r.U : ℝ) - (r.n1 : ℝ) * (r.n2 : ℝ) / 2| /
          Real.sqrt
            ((r.n1 : ℝ) * (r.n2 : ℝ) * ((r.n1 : ℝ) + (r.n2 : ℝ) + 1) /
              12) := by
  obtain ⟨hs1, hs2, rfl⟩ := utest_some_run h hr
  obtain ⟨hlt, hall, hc1, hc2⟩ := sortedGroups_pair_facts h
  have hne : g1 ≠ g2 := ne_of_lt hlt
  have hsg := swap_sortedGroups h
  have hN : countG data g1 + countG data g2 = data.length :=
    countG_partition hne data hall
  have hNq : (data.length : ℚ) = (countG data g1 : ℚ) + countG data g2 := by
    exact_mod_cast hN.symm
  have hRtot : rankedSum data g1 + rankedSum data g2 =
      ((countG data g1 : ℚ) + countG data g2) *
        (((countG data g1 : ℚ) + countG data g2) + 1) / 2 := by
    rw [rankedSum_eq_raw, rankedSum_eq_raw, rankSumRaw_total hne hall, hNq]
  have hU1eq : (mkResult (swapGroups g1 g2 data) g1 g2).U1 =
      (mkResult data g1 g2).U2 := by
    rw [mkResult_U1, mkResult_U2, mkResult_U1, swap_countG_fst hne,
      swap_countG_snd hne, swap_rankedSum_fst hne]
    linear_combination -hRtot
  have hU2eq : (mkResult (swapGroups g1 g2 data) g1 g2).U2 =
      (mkResult data g1 g2).U1 := by
    rw [mkResult_U2, mkResult_U1, mkResult_U1, swap_countG_fst hne,
      swap_countG_snd hne, swap_rankedSum_fst hne]
    linear_combination hRtot
  have hUeq : (mkResult (swapGroups g1 g2 data) g1 g2).U =
      (mkResult data g1 g2).U := by
    rw [mkResult_U, mkResult_U, hU1eq, hU2eq]
    exact min_comm _ _
  refine ⟨mkResult (swapGroups g1 g2 data) g1 g2, ?_, ?_, ?_, ?_, ?_,
    hU1eq, hU2eq, hUeq, ?_, ?_⟩
  · rw [utest_eq_run hsg]
    unfold runTest
    rw [if_neg ?_]
    rw [swap_countG_fst hne, swap_countG_snd hne]
    push_neg
    exact ⟨hs2, hs1⟩
  · rw [mkResult_n1, mkResult_n2, swap_countG_fst hne]
  · rw [mkResult_n2, mkResult_n1, swap_countG_snd hne]
  · rw [mkResult_R1, mkResult_R2, swap_rankedSum_fst hne]
  · rw [mkResult_R2, mkResult_R1, swap_rankedSum_snd hne]
  · rw [mkResult_reject, mkResult_reject, swap_countG_fst hne,
      swap_countG_snd hne, hUeq]
    have e2 : (countG data g2 : ℚ) + countG data g1 + 1 =
        (countG data g1 : ℚ) + countG data g2 + 1 := by ring
    have e1 : (countG data g2 : ℚ) * countG data g1 =
        (countG data g1 : ℚ) * countG data g2 := by ring
    rw [e2, e1]
  · rw [mkResult_n1, mkResult_n2, mkResult_n1, mkResult_n2,
      swap_countG_fst hne, swap_countG_snd hne, hUeq]
    have e1 : (countG data g2 : ℝ) * (countG data g1 : ℝ) =
        (countG data g1 : ℝ) * (countG data g2 : ℝ) := by ring
    have e2 : (countG data g2 : ℝ) + (countG data g1 : ℝ) + 1 =
        (countG data g1 : ℝ) + (countG data g2 : ℝ) + 1 := by ring
    rw [e1, e2]

theorem rankOf_eval (data : List Obs) (v : ℚ) :
    rankOf data v = (countLt (data.map Obs.value) v : ℚ) +
      ((countEq (data.map Obs.value) v : ℚ) + 1) / 2 := by
  rw [rankOf_eq_midrank, midrank]

theorem three_sortedGroups : sortedGroups dataThreeLabels = ["A", "B", "C"] := by
  have hd : (dataThreeLabels.map Obs.group).dedup = ["A", "B", "C"] := by
    decide
  unfold sortedGroups
  rw [hd]
  simp [List.insertionSort, List.orderedInsert]
  decide

/-- C2 evaluation: a dataset with three distinct labels produces a test
result built from the first two sorted labels (with sizes counted over
those labels only), instead of failing. -/
theorem three_labels_runs_silently :
    sortedGroups dataThreeLabels = ["A", "B", "C"] ∧
      utest dataThreeLabels = .ok (some (mkResult dataThreeLabels "A" "B")) ∧
      (mkResult dataThreeLabels "A" "B").n1 = 1 ∧
      (mkResult dataThreeLabels "A" "B").n2 = 1 := by
  refine ⟨three_sortedGroups, ?_, by decide, by decide⟩
  rw [utest_eq_run three_sortedGroups]
  unfold runTest
  rw [if_neg ?_]
  push_neg
  refine ⟨?_, ?_⟩
  · show countG dataThreeLabels "A" < 10
    decide
  · show countG dataThreeLabels "B" < 10
    decide

/-- C7 evaluation: with a single distinct label, the engine raises an
unguarded IndexError at the subscript of the missing second group,
rather than reporting a degenerate-input failure. -/
theorem one_label_index_error :
    utest dataOneLabel = .error .indexError := by
  have hd : (dataOneLabel.map Obs.group).dedup = ["A"] := by decide
  have hg : sortedGroups dataOneLabel = ["A"] := by
    unfold sortedGroups
    rw [hd]
    simp [List.insertionSort, List.orderedInsert]
  unfold utest
  rw [hg]

theorem sample_sortedGroups : sortedGroups sampleData = ["A", "B"] := by
  have hd : (sampleData.map Obs.group).dedup = ["B", "A"] := by decide
  unfold sortedGroups
  rw [hd]
  simp [List.insertionSort, List.orderedInsert]
  decide

theorem sample_R1 : rankedSum sampleData "A" = 103 / 2 := by
  have hfA : sampleData.filter (fun o => o.group = "A") =
      [⟨"A", 20⟩, ⟨"A", 23⟩, ⟨"A", 39⟩, ⟨"A", 42⟩, ⟨"A", 51⟩, ⟨"A", 57⟩,
       ⟨"A", 60⟩] := by decide
  unfold rankedSum
  rw [hfA]
  simp only [List.map_cons, List.map_nil, List.sum_cons, List.sum_nil,
    rankOf_eval]
  norm_num [show countLt (sampleData.map Obs.value) 20 = 0 from by decide,
    show countEq (sampleData.map Obs.value) 20 = 1 from by decide,
    show countLt (sampleData.map Obs.value) 23 = 1 from by decide,
    show countEq (sampleData.map Obs.value) 23 = 1 from by decide,
    show countLt (sampleData.map Obs.value) 39 = 6 from by decide,
    show countEq (sampleData.map Obs.value) 39 = 1 from by decide,
    show countLt (sampleData.map Obs.value) 42 = 7 from by decide,
    show countEq (sampleData.map Obs.value) 42 = 2 from by decide,
    show countLt (sampleData.map Obs.value) 51 = 9 from by decide,
    show countEq (sampleData.map Obs.value) 51 = 1 from by decide,
    show countLt (sampleData.map Obs.value) 57 = 10 from by decide,
    show countEq (sampleData.map Obs.value) 57 = 1 from by decide,
    show countLt (sampleData.map Obs.value) 60 = 11 from by decide,
    show countEq (sampleData.map Obs.value) 60 = 1 from by decide]

theorem sample_R2 : rankedSum sampleData "B" = 53 / 2 := by
  have hfB : sampleData.filter (fun o => o.group = "B") =
      [⟨"B", 25⟩, ⟨"B", 29⟩, ⟨"B", 30⟩, ⟨"B", 35⟩, ⟨"B", 42⟩] := by decide
  unfold rankedSum
  rw [hfB]
  simp only [List.map_cons, List.map_nil, List.sum_cons, List.sum_nil,
    rankOf_eval]
  norm_num [show countLt (sampleData.map Obs.value) 25 = 2 from by decide,
    show countEq (sampleData.map Obs.value) 25 = 1 from by decide,
    show countLt (sampleData.map Obs.value) 29 = 3 from by decide,
    show countEq (sampleData.map Obs.value) 29 = 1 from by decide,
    show countLt (sampleData.map Obs.value) 30 = 4 from by decide,
    show countEq (sampleData.map Obs.value) 30 = 1 from by decide,
    show countLt (sampleData.map Obs.value) 35 = 5 from by decide,
    show countEq (sampleData.map Obs.value) 35 = 1 from by decide,
    show countLt (sampleData.map Obs.value) 42 = 7 from by decide,
    show countEq (sampleData.map Obs.value) 42 = 2 from by decide]

theorem sample_run :
    utest sampleData = .ok (some (mkResult sampleData "A" "B")) := by
  rw [utest_eq_run sample_sortedGroups]
  unfold runTest
  rw [if_neg ?_]
  push_neg
  refine ⟨?_, ?_⟩
  · show countG sampleData "A" < 10
    decide
  · show countG sampleData "B" < 10
    decide

theorem sample_U1 : (mkResult sampleData "A" "B").U1 = 23 / 2 := by
  rw [mkResult_U1, sample_R1,
    show countG sampleData "A" = 7 from by decide,
    show countG sampleData "B" = 5 from by decide]
  norm_num

theorem sample_U2 : (mkResult sampleData "A" "B").U2 = 47 / 2 := by
  rw [mkResult_U2, sample_U1,
    show countG sampleData "A" = 7 from by decide,
    show countG sampleData "B" = 5 from by decide]
  norm_num

theorem sample_rank42 : rankOf sampleData 42 = 17 / 2 := by
  rw [rankOf_eval,
    show countLt (sampleData.map Obs.value) 42 = 7 from by decide,
    show countEq (sampleData.map Obs.value) 42 = 2 from by decide]
  norm_num

/-- C3 counterexample: on the built-in sample dataset the tied pair of
42s receives midrank 8.5, not 7.5, and the engine produces
U1 = 11.5 and U2 = 23.5, not U1 = 29 and U2 = 6. -/
theorem sample_fixture_claim_false :
    rankOf sampleData 42 ≠ (7.5 : ℚ) ∧
      ¬ (∃ r, utest sampleData = .ok (some r) ∧ r.U1 = 29 ∧ r.U2 = 6) := by
  constructor
  · rw [sample_rank42]
    norm_num
  · rintro ⟨r, hr, h29, h6⟩
    rw [sample_run] at hr
    have hre : r = mkResult sampleData "A" "B" :=
      (Option.some_inj.mp (Except.ok.inj hr)).symm
    rw [hre, sample_U1] at h29
    norm_num at h29

/-- C3 amended: on the built-in sample dataset the engine
deterministically computes n1 = 7, n2 = 5, the tied pair of 42s gets
midrank 8.5 (positions 8 and 9), R1 = 51.5, R2 = 26.5, U1 = 11.5,
U2 = 23.5, U = 11.5, and fails to reject the null hypothesis. -/
theorem sample_fixture_eval :
    rankOf sampleData 42 = 17 / 2 ∧
      ∃ r, utest sampleData = .ok (some r) ∧
        r.n1 = 7 ∧ r.n2 = 5 ∧ r.R1 = 103 / 2 ∧ r.R2 = 53 / 2 ∧
        r.U1 = 23 / 2 ∧ r.U2 = 47 / 2 ∧ r.U = 23 / 2 ∧ r.reject = false := by
  refine ⟨sample_rank42, mkResult sampleData "A" "B", sample_run,
    by decide, by decide, ?_, ?_, sample_U1, sample_U2, ?_, ?_⟩
  · rw [mkResult_R1, sample_R1]
  · rw [mkResult_R2, sample_R2]
  · rw [mkResult_U, sample_U1, sample_U2]
    rw [min_eq_left (by norm_num)]
  · rw [mkResult_reject, mkResult_U, sample_U1, sample_U2,
      show countG sampleData "A" = 7 from by decide,
      show countG sampleData "B" = 5 from by decide]
    apply decide_eq_false
    rw [min_eq_left (by norm_num)]
    norm_num

theorem strAB_lt : ("A" : String) < "B" := by
  rw [String.lt_iff_toList_lt]
  decide

theorem utest_run_of_small {data : List Obs} {g1 g2 : String}
    (h : sortedGroups data = [g1, g2]) (h1 : countG data g1 < 10)
    (h2 : countG data g2 < 10) :
    utest data = .ok (some (mkResult data g1 g2)) := by
  rw [utest_eq_run h]
  unfold runTest
  rw [if_neg ?_]
  push_neg
  exact ⟨h1, h2⟩

theorem w1_sortedGroups :
    sortedGroups [(⟨"A", 1⟩ : Obs), ⟨"B", 2⟩] = ["A", "B"] :=
  sortedGroups_eq_pair strAB_lt (by decide) (by decide) (by decide)

theorem w1_run : utest [(⟨"A", 1⟩ : Obs), ⟨"B", 2⟩] =
    .ok (some (mkResult [(⟨"A", 1⟩ : Obs), ⟨"B", 2⟩] "A" "B")) :=
  utest_run_of_small w1_sortedGroups (by decide) (by decide)

/-- Witness for the decision-rule theorem at a concrete dataset. -/
theorem mann_whitney_z_decision_witness :
    sortedGroups [(⟨"A", 1⟩ : Obs), ⟨"B", 2⟩] = ["A", "B"] ∧
      utest [(⟨"A", 1⟩ : Obs), ⟨"B", 2⟩] =
        .ok (some (mkResult [(⟨"A", 1⟩ : Obs), ⟨"B", 2⟩] "A" "B")) ∧
      ((mkResult [(⟨"A", 1⟩ : Obs), ⟨"B", 2⟩] "A" "B").U =
          min (mkResult [(⟨"A", 1⟩ : Obs), ⟨"B", 2⟩] "A" "B").U1
            (mkResult [(⟨"A", 1⟩ : Obs), ⟨"B", 2⟩] "A" "B").U2 ∧
        ((mkResult [(⟨"A", 1⟩ : Obs), ⟨"B", 2⟩] "A" "B").reject = true ↔
          (1.96 : ℝ) <
            |((mkResult [(⟨"A", 1⟩ : Obs), ⟨"B", 2⟩] "A" "B").U : ℝ) -
                ((mkResult [(⟨"A", 1⟩ : Obs), ⟨"B", 2⟩] "A" "B").n1 : ℝ) *
                  ((mkResult [(⟨"A", 1⟩ : Obs), ⟨"B", 2⟩] "A" "B").n2 : ℝ) /
                  2| /
              Real.sqrt
                (((mkResult [(⟨"A", 1⟩ : Obs), ⟨"B", 2⟩] "A" "B").n1 : ℝ) *
                    ((mkResult [(⟨"A", 1⟩ : Obs), ⟨"B", 2⟩] "A" "B").n2 : ℝ) *
                    (((mkResult [(⟨"A", 1⟩ : Obs), ⟨"B", 2⟩] "A" "B").n1 : ℝ) +
                      ((mkResult [(⟨"A", 1⟩ : Obs), ⟨"B", 2⟩] "A" "B").n2 : ℝ) +
                      1) / 12))) :=
  ⟨w1_sortedGroups, w1_run, mann_whitney_z_decision w1_sortedGroups w1_run⟩

theorem w4_sortedGroups :
    sortedGroups [(⟨"A", 3⟩ : Obs), ⟨"B", 3⟩, ⟨"B", 7⟩] = ["A", "B"] :=
  sortedGroups_eq_pair strAB_lt (by decide) (by decide) (by decide)

theorem w4_run : utest [(⟨"A", 3⟩ : Obs), ⟨"B", 3⟩, ⟨"B", 7⟩] =
    .ok (some (mkResult [(⟨"A", 3⟩ : Obs), ⟨"B", 3⟩, ⟨"B", 7⟩] "A" "B")) :=
  utest_run_of_small w4_sortedGroups (by decide) (by decide)

/-- Witness for the rank-sum invariant at a concrete dataset with a
cross-group tie. -/
theorem rank_sum_invariant_witness :
    sortedGroups [(⟨"A", 3⟩ : Obs), ⟨"B", 3⟩, ⟨"B", 7⟩] = ["A", "B"] ∧
      utest [(⟨"A", 3⟩ : Obs), ⟨"B", 3⟩, ⟨"B", 7⟩] =
        .ok (some (mkResult [(⟨"A", 3⟩ : Obs), ⟨"B", 3⟩, ⟨"B", 7⟩] "A" "B")) ∧
      (mkResult [(⟨"A", 3⟩ : Obs), ⟨"B", 3⟩, ⟨"B", 7⟩] "A" "B").R1 +
          (mkResult [(⟨"A", 3⟩ : Obs), ⟨"B", 3⟩, ⟨"B", 7⟩] "A" "B").R2 =
        (((mkResult [(⟨"A", 3⟩ : Obs), ⟨"B", 3⟩, ⟨"B", 7⟩] "A" "B").n1 : ℚ) +
            ((mkResult [(⟨"A", 3⟩ : Obs), ⟨"B", 3⟩, ⟨"B", 7⟩] "A" "B").n2 : ℚ)) *
          (((mkResult [(⟨"A", 3⟩ : Obs), ⟨"B", 3⟩, ⟨"B", 7⟩] "A" "B").n1 : ℚ) +
            ((mkResult [(⟨"A", 3⟩ : Obs), ⟨"B", 3⟩, ⟨"B", 7⟩] "A" "B").n2 : ℚ) +
            1) / 2 :=
  ⟨w4_sortedGroups, w4_run, rank_sum_invariant w4_sortedGroups w4_run⟩

theorem w5_sortedGroups :
    sortedGroups [(⟨"A", 1⟩ : Obs), ⟨"A", 2⟩, ⟨"B", 1⟩] = ["A", "B"] :=
  sortedGroups_eq_pair strAB_lt (by decide) (by decide) (by decide)

theorem w5_run : utest [(⟨"A", 1⟩ : Obs), ⟨"A", 2⟩, ⟨"B", 1⟩] =
    .ok (some (mkResult [(⟨"A", 1⟩ : Obs), ⟨"A", 2⟩, ⟨"B", 1⟩] "A" "B")) :=
  utest_run_of_small w5_sortedGroups (by decide) (by decide)

/-- Witness for the U-statistic invariant at a concrete dataset. -/
theorem u_statistic_invariant_witness :
    sortedGroups [(⟨"A", 1⟩ : Obs), ⟨"A", 2⟩, ⟨"B", 1⟩] = ["A", "B"] ∧
      utest [(⟨"A", 1⟩ : Obs), ⟨"A", 2⟩, ⟨"B", 1⟩] =
        .ok (some (mkResult [(⟨"A", 1⟩ : Obs), ⟨"A", 2⟩, ⟨"B", 1⟩] "A" "B")) ∧
      ((mkResult [(⟨"A", 1⟩ : Obs), ⟨"A", 2⟩, ⟨"B", 1⟩] "A" "B").U1 =
          ((mkResult [(⟨"A", 1⟩ : Obs), ⟨"A", 2⟩, ⟨"B", 1⟩] "A" "B").n1 : ℚ) *
              ((mkResult [(⟨"A", 1⟩ : Obs), ⟨"A", 2⟩, ⟨"B", 1⟩] "A" "B").n2 : ℚ) +
            (((mkResult [(⟨"A", 1⟩ : Obs), ⟨"A", 2⟩, ⟨"B", 1⟩] "A" "B").n1 : ℚ) *
              (((mkResult [(⟨"A", 1⟩ : Obs), ⟨"A", 2⟩, ⟨"B", 1⟩] "A" "B").n1 : ℚ) +
                1)) / 2 -
            (mkResult [(⟨"A", 1⟩ : Obs), ⟨"A", 2⟩, ⟨"B", 1⟩] "A" "B").R1 ∧
        (mkResult [(⟨"A", 1⟩ : Obs), ⟨"A", 2⟩, ⟨"B", 1⟩] "A" "B").U2 =
          ((mkResult [(⟨"A", 1⟩ : Obs), ⟨"A", 2⟩, ⟨"B", 1⟩] "A" "B").n1 : ℚ) *
              ((mkResult [(⟨"A", 1⟩ : Obs), ⟨"A", 2⟩, ⟨"B", 1⟩] "A" "B").n2 : ℚ) -
            (mkResult [(⟨"A", 1⟩ : Obs), ⟨"A", 2⟩, ⟨"B", 1⟩] "A" "B").U1 ∧
        (mkResult [(⟨"A", 1⟩ : Obs), ⟨"A", 2⟩, ⟨"B", 1⟩] "A" "B").U1 +
            (mkResult [(⟨"A", 1⟩ : Obs), ⟨"A", 2⟩, ⟨"B", 1⟩] "A" "B").U2 =
          ((mkResult [(⟨"A", 1⟩ : Obs), ⟨"A", 2⟩, ⟨"B", 1⟩] "A" "B").n1 : ℚ) *
            ((mkResult [(⟨"A", 1⟩ : Obs), ⟨"A", 2⟩, ⟨"B", 1⟩] "A" "B").n2 : ℚ) ∧
        0 ≤ (mkResult [(⟨"A", 1⟩ : Obs), ⟨"A", 2⟩, ⟨"B", 1⟩] "A" "B").U1 ∧
        0 ≤ (mkResult [(⟨"A", 1⟩ : Obs), ⟨"A", 2⟩, ⟨"B", 1⟩] "A" "B").U2) :=
  ⟨w5_sortedGroups, w5_run, u_statistic_invariant w5_sortedGroups w5_run⟩

theorem w6_sortedGroups :
    sortedGroups [(⟨"A", 1⟩ : Obs), ⟨"A", 2⟩, ⟨"A", 3⟩, ⟨"A", 4⟩, ⟨"A", 5⟩,
      ⟨"A", 6⟩, ⟨"A", 7⟩, ⟨"A", 8⟩, ⟨"A", 9⟩, ⟨"A", 10⟩, ⟨"B", 5⟩] =
      ["A", "B"] :=
  sortedGroups_eq_pair strAB_lt (by decide) (by decide) (by decide)

/-- Witness for the size gate: one group of exactly 10 observations
aborts the computation, and the gate statement also applies. -/
theorem sample_size_gate_witness :
    sortedGroups [(⟨"A", 1⟩ : Obs), ⟨"A", 2⟩, ⟨"A", 3⟩, ⟨"A", 4⟩, ⟨"A", 5⟩,
        ⟨"A", 6⟩, ⟨"A", 7⟩, ⟨"A", 8⟩, ⟨"A", 9⟩, ⟨"A", 10⟩, ⟨"B", 5⟩] =
      ["A", "B"] ∧
      utest [(⟨"A", 1⟩ : Obs), ⟨"A", 2⟩, ⟨"A", 3⟩, ⟨"A", 4⟩, ⟨"A", 5⟩,
        ⟨"A", 6⟩, ⟨"A", 7⟩, ⟨"A", 8⟩, ⟨"A", 9⟩, ⟨"A", 10⟩, ⟨"B", 5⟩] =
        .ok none :=
  ⟨w6_sortedGroups,
    (sample_size_gate w6_sortedGroups).1 (Or.inl (by decide))⟩

theorem w8_sortedGroups :
    sortedGroups [(⟨"A", 5⟩ : Obs), ⟨"B", 5⟩, ⟨"B", 5⟩] = ["A", "B"] :=
  sortedGroups_eq_pair strAB_lt (by decide) (by decide) (by decide)

/-- Witness for the all-tied degeneracy at a concrete dataset. -/
theorem all_tied_degenerate_witness :
    sortedGroups [(⟨"A", 5⟩ : Obs), ⟨"B", 5⟩, ⟨"B", 5⟩] = ["A", "B"] ∧
      (∀ o ∈ [(⟨"A", 5⟩ : Obs), ⟨"B", 5⟩, ⟨"B", 5⟩], o.value = 5) ∧
      ∃ r, utest [(⟨"A", 5⟩ : Obs), ⟨"B", 5⟩, ⟨"B", 5⟩] = .ok (some r) ∧
        (∀ o ∈ [(⟨"A", 5⟩ : Obs), ⟨"B", 5⟩, ⟨"B", 5⟩],
          rankOf [(⟨"A", 5⟩ : Obs), ⟨"B", 5⟩, ⟨"B", 5⟩] o.value =
            ((([(⟨"A", 5⟩ : Obs), ⟨"B", 5⟩, ⟨"B", 5⟩] : List Obs).length : ℚ) +
              1) / 2) ∧
        r.U1 = (r.n1 : ℚ) * (r.n2 : ℚ) / 2 ∧
        r.U2 = (r.n1 : ℚ) * (r.n2 : ℚ) / 2 ∧
        |(r.U : ℝ) - (r.n1 : ℝ) * (r.n2 : ℝ) / 2| /
            Real.sqrt
              ((r.n1 : ℝ) * (r.n2 : ℝ) * ((r.n1 : ℝ) + (r.n2 : ℝ) + 1) /
                12) = 0 ∧
        r.reject = false :=
  ⟨w8_sortedGroups, by decide,
    @all_tied_degenerate [(⟨"A", 5⟩ : Obs), ⟨"B", 5⟩, ⟨"B", 5⟩] "A" "B" 5
      w8_sortedGroups (by decide) (by decide) (by decide)⟩

theorem w9_sortedGroups :
    sortedGroups [(⟨"A", 1⟩ : Obs), ⟨"B", 2⟩, ⟨"B", 3⟩] = ["A", "B"] :=
  sortedGroups_eq_pair strAB_lt (by decide) (by decide) (by decide)

theorem w9_run : utest [(⟨"A", 1⟩ : Obs), ⟨"B", 2⟩, ⟨"B", 3⟩] =
    .ok (some (mkResult [(⟨"A", 1⟩ : Obs), ⟨"B", 2⟩, ⟨"B", 3⟩] "A" "B")) :=
  utest_run_of_small w9_sortedGroups (by decide) (by decide)

/-- Witness for the label-swap symmetry at a concrete dataset. -/
theorem swap_labels_symmetry_witness :
    sortedGroups [(⟨"A", 1⟩ : Obs), ⟨"B", 2⟩, ⟨"B", 3⟩] = ["A", "B"] ∧
      utest [(⟨"A", 1⟩ : Obs), ⟨"B", 2⟩, ⟨"B", 3⟩] =
        .ok (some (mkResult [(⟨"A", 1⟩ : Obs), ⟨"B", 2⟩, ⟨"B", 3⟩] "A" "B")) ∧
      ∃ r2, utest (swapGroups "A" "B" [(⟨"A", 1⟩ : Obs), ⟨"B", 2⟩, ⟨"B", 3⟩]) =
          .ok (some r2) ∧
        r2.n1 = (mkResult [(⟨"A", 1⟩ : Obs), ⟨"B", 2⟩, ⟨"B", 3⟩] "A" "B").n2 ∧
        r2.n2 = (mkResult [(⟨"A", 1⟩ : Obs), ⟨"B", 2⟩, ⟨"B", 3⟩] "A" "B").n1 ∧
        r2.R1 = (mkResult [(⟨"A", 1⟩ : Obs), ⟨"B", 2⟩, ⟨"B", 3⟩] "A" "B").R2 ∧
        r2.R2 = (mkResult [(⟨"A", 1⟩ : Obs), ⟨"B", 2⟩, ⟨"B", 3⟩] "A" "B").R1 ∧
        r2.U1 = (mkResult [(⟨"A", 1⟩ : Obs), ⟨"B", 2⟩, ⟨"B", 3⟩] "A" "B").U2 ∧
        r2.U2 = (mkResult [(⟨"A", 1⟩ : Obs), ⟨"B", 2⟩, ⟨"B", 3⟩] "A" "B").U1 ∧
        r2.U = (mkResult [(⟨"A", 1⟩ : Obs), ⟨"B", 2⟩, ⟨"B", 3⟩] "A" "B").U ∧
        r2.reject =
          (mkResult [(⟨"A", 1⟩ : Obs), ⟨"B", 2⟩, ⟨"B", 3⟩] "A" "B").reject ∧
        |(r2.U : ℝ) - (r2.n1 : ℝ) * (r2.n2 : ℝ) / 2| /
            Real.sqrt
              ((r2.n1 : ℝ) * (r2.n2 : ℝ) * ((r2.n1 : ℝ) + (r2.n2 : ℝ) + 1) /
                12) =
          |((mkResult [(⟨"A", 1⟩ : Obs), ⟨"B", 2⟩, ⟨"B", 3⟩] "A" "B").U : ℝ) -
              ((mkResult [(⟨"A", 1⟩ : Obs), ⟨"B", 2⟩, ⟨"B", 3⟩] "A" "B").n1 : ℝ) *
                ((mkResult [(⟨"A", 1⟩ : Obs), ⟨"B", 2⟩, ⟨"B", 3⟩] "A" "B").n2 : ℝ) /
                2| /
            Real.sqrt
              (((mkResult [(⟨"A", 1⟩ : Obs), ⟨"B", 2⟩, ⟨"B", 3⟩] "A" "B").n1 : ℝ) *
                  ((mkResult [(⟨"A", 1⟩ : Obs), ⟨"B", 2⟩, ⟨"B", 3⟩] "A" "B").n2 : ℝ) *
                  (((mkResult [(⟨"A", 1⟩ : Obs), ⟨"B", 2⟩, ⟨"B", 3⟩] "A" "B").n1 : ℝ) +
                    ((mkResult [(⟨"A", 1⟩ : Obs), ⟨"B", 2⟩, ⟨"B", 3⟩] "A" "B").n2 : ℝ) +
                    1) / 12) :=
  ⟨w9_sortedGroups, w9_run, swap_labels_symmetry w9_sortedGroups w9_run⟩

/-- Witness for the rounding-identity theorem at a concrete dataset and
observation. -/
theorem rounding_is_identity_witness :
    (⟨"A", 1⟩ : Obs) ∈ [(⟨"A", 1⟩ : Obs), ⟨"B", 2⟩] ∧
      ((∃ k : ℤ, rankOf [(⟨"A", 1⟩ : Obs), ⟨"B", 2⟩] (⟨"A", 1⟩ : Obs).value =
          (k : ℚ) / 2) ∧
        rankOf [(⟨"A", 1⟩ : Obs), ⟨"B", 2⟩] (⟨"A", 1⟩ : Obs).value =
          midrank (([(⟨"A", 1⟩ : Obs), ⟨"B", 2⟩] : List Obs).map Obs.value)
            (⟨"A", 1⟩ : Obs).value ∧
        rankedSum [(⟨"A", 1⟩ : Obs), ⟨"B", 2⟩] "A" =
          rankSumRaw [(⟨"A", 1⟩ : Obs), ⟨"B", 2⟩] "A") :=
  ⟨by decide, rounding_is_identity "A" (by decide)⟩

end UTest
